import Mathlib

/-!
Shallow embeddings of programs of the repository, each followed further down
by the properties proved of it.

Fibonacci cursor and range (`src/std-compliant-fibonacci.cpp`): the classes
`fibonacci_IT` and `fibonacci_range` and the loops `main` runs over them.

`size_t` is an unsigned machine integer.  Its width is platform dependent, so
every operation that can wrap takes the width `w` (in bits) as its first
argument and computes modulo `2 ^ w`; the fields themselves are natural
numbers.  A cursor is *well formed* for `w` when its three fields are below
`2 ^ w`, which is what a real `size_t` guarantees.
-/

/-- The class `fibonacci_IT`: fields `m_idx {0}`, `m_prev {0}`, `m_cur {1}`.
The default member initialisers are the defaults of the structure, so
`({} : fibonacci_IT)` is the defaulted constructor `fibonacci_IT()`. -/
structure fibonacci_IT where
  /-- Index of the current element. -/
  m_idx : Nat := 0
  /-- Previous value. -/
  m_prev : Nat := 0
  /-- Current value. -/
  m_cur : Nat := 1
  deriving DecidableEq

namespace fibonacci_IT

/-- The private constructor `explicit fibonacci_IT( size_t p_idx ) : m_idx(p_idx) {}`:
only `m_idx` is set, `m_prev` and `m_cur` keep their default initialisers. -/
def ofIdx (p_idx : Nat) : fibonacci_IT := { m_idx := p_idx }

/-- Dereference: `size_t operator*() const { return m_cur; }` -/
def deref (c : fibonacci_IT) : Nat := c.m_cur

/-- Pre-increment `operator++`: `std::swap( m_prev, m_cur ); m_cur += m_prev; m_idx++;`
as three successive assignments, the additions taken modulo `2 ^ w`. -/
def preInc (w : Nat) (c : fibonacci_IT) : fibonacci_IT :=
  let c1 : fibonacci_IT := { c with m_prev := c.m_cur, m_cur := c.m_prev }
  let c2 : fibonacci_IT := { c1 with m_cur := (c1.m_cur + c1.m_prev) % 2 ^ w }
  { c2 with m_idx := (c2.m_idx + 1) % 2 ^ w }

/-- Pre-decrement `operator--`: `if ( !m_idx ) return *this;` then
`tmp_val = m_prev; m_prev = m_cur - m_prev; m_cur = tmp_val; m_idx--;`
with the unsigned subtractions taken modulo `2 ^ w`. -/
def preDec (w : Nat) (c : fibonacci_IT) : fibonacci_IT :=
  if c.m_idx = 0 then c
  else
    let tmp_val := c.m_prev
    let c1 : fibonacci_IT := { c with m_prev := (c.m_cur + 2 ^ w - c.m_prev) % 2 ^ w }
    let c2 : fibonacci_IT := { c1 with m_cur := tmp_val }
    { c2 with m_idx := (c2.m_idx + 2 ^ w - 1) % 2 ^ w }

/-- Comparison `operator!=`: `return m_idx != o.m_idx;` -/
def ne (a o : fibonacci_IT) : Bool := a.m_idx != o.m_idx

/-- Comparison `operator<`: `return m_idx < o.m_idx;` -/
def lt (a o : fibonacci_IT) : Bool := decide (a.m_idx < o.m_idx)

/-- Comparison `operator<=`: `return m_idx <= o.m_idx;` -/
def le (a o : fibonacci_IT) : Bool := decide (a.m_idx ≤ o.m_idx)

/-- Comparison `operator==`: `return !this->operator!=(o);` -/
def eq (a o : fibonacci_IT) : Bool := !(a.ne o)

/-- Comparison `operator>`: `return !this->operator<=(o);` -/
def gt (a o : fibonacci_IT) : Bool := !(a.le o)

/-- Comparison `operator>=`: `return !this->operator< (o);` -/
def ge (a o : fibonacci_IT) : Bool := !(a.lt o)

/-- The three fields fit a `size_t` of `w` bits. -/
def WellFormed (w : Nat) (c : fibonacci_IT) : Prop :=
  c.m_idx < 2 ^ w ∧ c.m_prev < 2 ^ w ∧ c.m_cur < 2 ^ w

instance (w : Nat) (c : fibonacci_IT) : Decidable (WellFormed w c) := by
  unfold WellFormed; infer_instance

end fibonacci_IT

/-- The class `fibonacci_range`: `const fibonacci_IT m_begin{}` and
`fibonacci_IT m_end`. -/
structure fibonacci_range where
  /-- The begin cursor, default constructed. -/
  m_begin : fibonacci_IT := {}
  /-- The end cursor. -/
  m_end : fibonacci_IT
  deriving DecidableEq

namespace fibonacci_range

/-- The constructor `fibonacci_range( const size_t& p_end ) : m_end(p_end) {}`:
`m_end` is built by the private constructor of `fibonacci_IT`, `m_begin` by its
default member initialiser. -/
def ofEnd (p_end : Nat) : fibonacci_range := { m_end := fibonacci_IT.ofIdx p_end }

/-- Accessor `fibonacci_IT begin () const { return m_begin; }` -/
def begin_ (r : fibonacci_range) : fibonacci_IT := r.m_begin

/-- Accessor `fibonacci_IT end () const { return m_end; }` -/
def end_ (r : fibonacci_range) : fibonacci_IT := r.m_end

end fibonacci_range

/-- The loop of the range-based `for` of `main`,
`for ( const auto& fibElm : fibonacci_range(ELMS) ) { std::cout << fibElm << " "; }`,
that is `for ( ; it != last; ++it ) { out << *it; }`.  `out` is the list of
the values printed so far.  The loop has no bound of its own, so the model
counts iterations down from `fuel` and answers `none` when they run out. -/
def rangeForLoop (w : Nat) : Nat → fibonacci_IT → fibonacci_IT → List Nat → Option (List Nat)
  | 0, _, _, _ => none
  | fuel + 1, it, last, out =>
    if it.ne last then rangeForLoop w fuel (it.preInc w) last (out ++ [it.deref])
    else some out

/-- The range-based `for` over a range: the loop from `begin()` to `end()`
starting with nothing printed. -/
def rangeFor (w fuel : Nat) (r : fibonacci_range) : Option (List Nat) :=
  rangeForLoop w fuel r.begin_ r.end_ []

/-- The library algorithm `std::copy( first, last, std::back_inserter(v) )`:
`for ( ; first != last; ++first ) v.push_back( *first );`.  It is written only
against `!=`, `*` and `++` of the cursor.  `v` is the destination vector. -/
def copy (w : Nat) : Nat → fibonacci_IT → fibonacci_IT → List Nat → Option (List Nat)
  | 0, _, _, _ => none
  | fuel + 1, first, last, v =>
    if first.ne last then copy w fuel (first.preInc w) last (v.concat first.deref)
    else some v

/-- The scan of the library algorithm `std::minmax_element( first, last )`:
it keeps a cursor to the first smallest and to the last largest element seen,
comparing dereferenced values with `<`, and moves on with `++` until `!=`
fails. -/
def minmaxLoop (w : Nat) :
    Nat → fibonacci_IT → fibonacci_IT → fibonacci_IT × fibonacci_IT →
      Option (fibonacci_IT × fibonacci_IT)
  | 0, _, _, _ => none
  | fuel + 1, it, last, (mn, mx) =>
    if it.ne last then
      let mn1 := if it.deref < mn.deref then it else mn
      let mx1 := if it.deref < mx.deref then mx else it
      minmaxLoop w fuel (it.preInc w) last (mn1, mx1)
    else some (mn, mx)

/-- The library algorithm `std::minmax_element( first, last )` on cursors: both
results start at `first` (and stay there on an empty range). -/
def minmax_element (w fuel : Nat) (first last : fibonacci_IT) :
    Option (fibonacci_IT × fibonacci_IT) :=
  minmaxLoop w fuel first last (first, first)

/-- One iteration of the scan of `minmaxLoop`: the pair of cursors kept after
looking at `it`. -/
def minmaxStep (acc : fibonacci_IT × fibonacci_IT) (it : fibonacci_IT) :
    fibonacci_IT × fibonacci_IT :=
  (if it.deref < acc.1.deref then it else acc.1, if it.deref < acc.2.deref then acc.2 else it)

/-- The Fibonacci sequence the program documents, `1 1 2 3 5 8 ...`:
`fib 0 = 1`, `fib 1 = 1`, and each later term is the sum of the two before. -/
def fib : Nat → Nat
  | 0 => 1
  | 1 => 1
  | n + 2 => fib (n + 1) + fib n

/-- The term before `fib n`, with the convention `fib (-1) = 0`. -/
def fibBefore : Nat → Nat
  | 0 => 0
  | n + 1 => fib n

/-- The cursor stepped forward `n` times by `operator++`. -/
def stepForward (w : Nat) : Nat → fibonacci_IT → fibonacci_IT
  | 0, c => c
  | n + 1, c => stepForward w n (c.preInc w)

/-- One call of a stepping operator on a cursor. -/
inductive Step where
  /-- A call of `operator++`. -/
  | inc
  /-- A call of `operator--`. -/
  | dec
  deriving DecidableEq

/-- The effect of one stepping call. -/
def Step.apply (w : Nat) : Step → fibonacci_IT → fibonacci_IT
  | Step.inc, c => c.preInc w
  | Step.dec, c => c.preDec w

/-- The cursor after a sequence of stepping calls, the first call first. -/
def runSteps (w : Nat) : List Step → fibonacci_IT → fibonacci_IT
  | [], c => c
  | s :: rest, c => runSteps w rest (s.apply w c)

/-- The cursor that stands at index `n` and carries the two matching terms of
the sequence, all three reduced to `w` bits. -/
def fibCursor (w n : Nat) : fibonacci_IT :=
  { m_idx := n % 2 ^ w, m_prev := fibBefore n % 2 ^ w, m_cur := fib n % 2 ^ w }

/-- The step `previous, current := current, previous + current` with the index
incremented, as the specification words `operator++`: one simultaneous
assignment from the old values, the additions taken modulo `2 ^ w`. -/
def preIncSimultaneous (w : Nat) (c : fibonacci_IT) : fibonacci_IT :=
  { m_idx := (c.m_idx + 1) % 2 ^ w, m_prev := c.m_cur, m_cur := (c.m_prev + c.m_cur) % 2 ^ w }

/-- The step the specification words for `operator--` at a positive index:
the new previous is `current - previous` as an integer difference reduced modulo
`2 ^ w`, the new current is the old previous, the index goes down by one. -/
def preDecSimultaneous (w : Nat) (c : fibonacci_IT) : fibonacci_IT :=
  { m_idx := c.m_idx - 1,
    m_prev := (((c.m_cur : Int) - (c.m_prev : Int)) % (2 : Int) ^ w).toNat,
    m_cur := c.m_prev }

/-- One call of an accessor of a range. -/
inductive Access where
  /-- A call of `begin()`. -/
  | callBegin
  /-- A call of `end()`. -/
  | callEnd
  deriving DecidableEq

/-- A call of a `const` accessor in state-passing form: the cursor returned
(a copy) and the range after the call, which the accessor cannot modify. -/
def Access.call (r : fibonacci_range) : Access → fibonacci_IT × fibonacci_range
  | Access.callBegin => (r.begin_, r)
  | Access.callEnd => (r.end_, r)

/-- The cursors returned by a sequence of accessor calls, the first call first,
and the range after the last call. -/
def callAll : List Access → fibonacci_range → List fibonacci_IT × fibonacci_range
  | [], r => ([], r)
  | a :: rest, r =>
    let (c, r1) := a.call r
    let (cs, r2) := callAll rest r1
    (c :: cs, r2)

/-! Run-length compression of strings (`src/tuples-string-compression.cpp`).

A `std::string` is the list of its characters.  An iterator pair
`(p_cur, p_end)` into one string is the list of the characters from `p_cur` up
to `p_end`; the iterator `p_end` itself is the empty list, and advancing
`p_cur` drops characters from the front. -/

/-- The library algorithm `std::find_if( first, last, pred )`: the position of
the first character that satisfies `pred`, or `last` when there is none. -/
def find_if (pred : Char → Bool) : List Char → List Char
  | [] => []
  | c :: rest => if pred c then c :: rest else find_if pred rest

/-- The library function `std::distance( first, last )` of two positions of one
string, `last` not before `first`: the number of characters between them. -/
def distance (first last : List Char) : Nat := first.length - last.length

/-- The function `getNext( p_cur, p_end )`: `{ p_cur, '#', 0 }` on an empty range,
otherwise `curV = *p_cur`, `nxtIt = find_if( p_cur, p_end, curV != nxtV )` and
the result `{ nxtIt, curV, distance( p_cur, nxtIt ) }`. -/
def getNext (p_cur : List Char) : List Char × Char × Nat :=
  match p_cur with
  | [] => (p_cur, '#', 0)
  | curV :: _ =>
    let nxtIt := find_if (fun nxtV => curV != nxtV) p_cur
    (nxtIt, curV, distance p_cur nxtIt)

/-- The loop of `compress`: `while( curIt != endIt )` take the next run with
`getNext`, move `curIt` behind it and append `curSz` (printed in decimal by
`operator<<`) and `curV` to `res`.  The loop has no bound of its own, so the
model counts iterations down from `fuel` and answers `none` when they run out. -/
def compressLoop : Nat → List Char → List Char → Option (List Char)
  | 0, _, _ => none
  | fuel + 1, curIt, res =>
    if curIt ≠ [] then
      match getNext curIt with
      | (nxtIt, curV, curSz) => compressLoop fuel nxtIt (res ++ Nat.toDigits 10 curSz ++ [curV])
    else some res

/-- The function `compress( p_in )`: the loop from `std::begin(p_in)` with an
empty `res`. -/
def compress (fuel : Nat) (p_in : List Char) : Option (List Char) :=
  compressLoop fuel p_in []

/-- The digit loop of the extraction `l_in >> curSz`: decimal digits are
consumed and accumulated, most significant first, up to the first character
that is not a digit. -/
def readDigits : List Char → Nat → Nat × List Char
  | [], acc => (acc, [])
  | c :: rest, acc =>
    if c.isDigit then readDigits rest (acc * 10 + (c.toNat - 48)) else (acc, c :: rest)

/-- The extraction `l_in >> curSz` of a `size_t` of `w` bits with `std::noskipws`:
an optional sign, then at least one decimal digit.  It fails (`none`) when no
digit follows or when the number does not fit `w` bits; a number after `-` is
negated modulo `2 ^ w`.  On success the value and the rest of the input. -/
def readSize (w : Nat) (l_in : List Char) : Option (Nat × List Char) :=
  let signed : Bool × List Char :=
    match l_in with
    | [] => (false, l_in)
    | c :: rest => if c = '-' then (true, rest) else if c = '+' then (false, rest) else (false, l_in)
  match signed.2 with
  | [] => none
  | c :: _ =>
    if c.isDigit then
      match readDigits signed.2 0 with
      | (v, rest) =>
        if v < 2 ^ w then some (if signed.1 then (2 ^ w - v) % 2 ^ w else v, rest) else none
    else none

/-- The loop of `decompress`: `while ( l_in >> curSz >> curV )` append
`std::string( curSz, curV )` to `l_res`.  With `std::noskipws` the extraction
of `curV` takes the next character whatever it is and fails only at the end of
the input.  The loop ends at the first failed extraction. -/
def decompressLoop (w : Nat) : Nat → List Char → List Char → Option (List Char)
  | 0, _, _ => none
  | fuel + 1, l_in, l_res =>
    match readSize w l_in with
    | none => some l_res
    | some (_, []) => some l_res
    | some (curSz, curV :: rest) =>
      decompressLoop w fuel rest (l_res ++ List.replicate curSz curV)

/-- The function `decompress( p_in )`: the loop over the whole of `p_in` with
an empty `l_res`. -/
def decompress (w fuel : Nat) (p_in : List Char) : Option (List Char) :=
  decompressLoop w fuel p_in []

/-- The maximal runs of identical characters of a string, left to right, each
as its character and its length. -/
def runs : List Char → List (Char × Nat)
  | [] => []
  | c :: rest =>
    match runs rest with
    | [] => [(c, 1)]
    | (d, n) :: more => if c = d then (d, n + 1) :: more else (c, 1) :: (d, n) :: more

/-- The string a list of runs stands for: each run written out in full. -/
def expandRuns : List (Char × Nat) → List Char
  | [] => []
  | (c, n) :: more => List.replicate n c ++ expandRuns more

/-- The run-length encoding of a list of runs: for each run its length in
decimal followed by its character. -/
def encodeRuns : List (Char × Nat) → List Char
  | [] => []
  | (c, n) :: more => Nat.toDigits 10 n ++ [c] ++ encodeRuns more

/-! Removal from a vector in constant time (`src/fast-remove-in-vectors.cpp`).
A `std::vector<T>` is the list of its elements. -/

/-- The function `fast_remove( p_vec, p_idx )` by index: when
`p_idx < p_vec.size()` it runs `std::swap( p_vec[p_idx], p_vec.back() )` and
`p_vec.pop_back()`, otherwise it leaves the vector alone.  The result is the
vector after the call. -/
def fast_remove {T : Type} (p_vec : List T) (p_idx : Nat) : List T :=
  if h : p_idx < p_vec.length then
    have hb : p_vec.length - 1 < p_vec.length := by omega
    let atIdx := p_vec[p_idx]
    let back := p_vec[p_vec.length - 1]
    ((p_vec.set p_idx back).set (p_vec.length - 1) atIdx).dropLast
  else p_vec

/-! Consecutive duplicates of one value (`src/playing-with-std-unique.cpp`) -/

/-- The scan of the library algorithm `std::unique( first, last, p )` after the
element `kept` has been kept: an element is dropped when `p kept x` holds, and
otherwise it is kept and becomes the element later ones are compared with. -/
def uniqueAfter {T : Type} (p : T → T → Bool) : T → List T → List T
  | _, [] => []
  | kept, x :: xs => if p kept x then uniqueAfter p kept xs else x :: uniqueAfter p x xs

/-- The library algorithm `std::unique( first, last, p )`: the contents of the
range from `first` to the returned iterator, which is what
`erase( returned, last )` leaves in the container. -/
def unique {T : Type} (p : T → T → Bool) : List T → List T
  | [] => []
  | x :: xs => x :: uniqueAfter p x xs

/-- The function `remove_multiple_char( it_begin, it_end, p_remove )`, in both
its `std::string` and its template form, followed by the `erase` of `main`:
`std::unique` with the predicate `c1 == p_remove && c2 == p_remove`. -/
def remove_multiple_char {T : Type} [DecidableEq T] (s : List T) (p_remove : T) : List T :=
  unique (fun c1 c2 => decide (c1 = p_remove) && decide (c2 = p_remove)) s

/-- A run with its length cut down to one when its character is `p`. -/
def collapseRun (p : Char) (r : Char × Nat) : Char × Nat :=
  if r.1 = p then (r.1, 1) else r

/-! Failure signalled by an empty optional (`src/std-optional/optional-safe-failure.cpp`).

A `std::map<std::string, T>` is the list of its entries, a key with its value;
the map keeps its keys distinct.  An iterator into the map is the entry it
points at, and `end()` is `none`. -/

/-- The exception `std::map::at` throws for a key that is not in the map. -/
inductive MapException where
  /-- The exception `std::out_of_range`. -/
  | out_of_range
  deriving DecidableEq

/-- The member `p_map.find( key )`: the entry of `key`, or `end()`. -/
def map_find {T : Type} (p_map : List (List Char × T)) (key : List Char) :
    Option (List Char × T) :=
  match p_map with
  | [] => none
  | entry :: rest => if entry.1 = key then some entry else map_find rest key

/-- The member `p_map.at( key )`: the value of `key`, or the exception
`std::out_of_range` when the map has no such key. -/
def map_at {T : Type} (p_map : List (List Char × T)) (key : List Char) :
    Except MapException T :=
  match map_find p_map key with
  | some entry => Except.ok entry.2
  | none => Except.error MapException.out_of_range

/-- The function `maybe_get( p_map, p_val )`:
`if (p_map.find(p_val) != p_map.end()) return p_map.at(p_val);` and
`return std::nullopt;` otherwise.  An exception of `at` would leave the
function, so the result is the optional or the exception. -/
def maybe_get {T : Type} (p_map : List (List Char × T)) (p_val : List Char) :
    Except MapException (Option T) :=
  if (map_find p_map p_val).isSome then
    match map_at p_map p_val with
    | Except.ok v => Except.ok (some v)
    | Except.error e => Except.error e
  else Except.ok none

/-! Addition chosen at compile time (`src/constexpr-if.cpp`).

The template `MyClass<AType>::add<AnotherType>` has two instantiations, chosen
by `if constexpr ( std::is_same_v<AType, std::vector<AnotherType> > )`.  Each is
a function here; the `+` of the types involved is a parameter. -/

/-- The class `MyClass<AType>`: the one field `m_val`. -/
structure MyClass (AType : Type) where
  /-- The value held. -/
  m_val : AType

/-- The loop `for ( auto&& p_elm : l_cpy ) { p_elm += p_val; }` over the
elements of the copy, first to last. -/
def addToEach {T : Type} (plus : T → T → T) : List T → T → List T
  | [], _ => []
  | p_elm :: rest, p_val => plus p_elm p_val :: addToEach plus rest p_val

/-- The instantiation of `add` with `AType = std::vector<AnotherType>`:
`AType l_cpy(m_val);`, the loop over `l_cpy`, `return l_cpy;`.  The method is
`const`: the result comes with the object after the call. -/
def MyClass.addVector {T : Type} (plus : T → T → T) (self : MyClass (List T)) (p_val : T) :
    List T × MyClass (List T) :=
  let l_cpy := self.m_val
  (addToEach plus l_cpy p_val, self)

/-- Every other instantiation of `add`: `return m_val + p_val;`.  The method is
`const`: the result comes with the object after the call. -/
def MyClass.addOther {AType AnotherType : Type} (plus : AType → AnotherType → AType)
    (self : MyClass AType) (p_val : AnotherType) : AType × MyClass AType :=
  (plus self.m_val p_val, self)

/-! Roots of a quadratic equation (`src/std-variant/variant-examples.cpp`).

The arithmetic of `double` is read as the exact arithmetic of an ordered field
`K`, and `sqrt` is a parameter. -/

/-- The type `EquationRoots = std::variant<DoublePair, double, std::monostate>`. -/
inductive EquationRoots (K : Type) where
  /-- The alternative `DoublePair`. -/
  | pair (first second : K)
  /-- The alternative `double`. -/
  | single (root : K)
  /-- The alternative `std::monostate`. -/
  | monostate
  deriving DecidableEq

/-- The function `FindRoots( a, b, c )`: `d = b*b-4*a*c`; for `d > 0.0`,
`p = sqrt(d) / (2*a)` and the pair `(-b + p, -b - p)`; for `d == 0.0`,
`(-1*b)/(2*a)`; `std::monostate()` otherwise. -/
def FindRoots {K : Type} [LinearOrderedField K] (sqrt : K → K) (a b c : K) : EquationRoots K :=
  let d := b * b - 4 * a * c
  if d > 0 then
    let p := sqrt d / (2 * a)
    EquationRoots.pair (-b + p) (-b - p)
  else if d = 0 then EquationRoots.single ((-1 * b) / (2 * a))
  else EquationRoots.monostate

/-! Arithmetic of the sequence and of wrapping subtraction -/

theorem fib_succ (n : Nat) : fib (n + 1) = fib n + fibBefore n := by
  cases n <;> simp [fib, fibBefore]

theorem wrap_sub_cancel (M a b : Nat) (hM : 0 < M) :
    ((a + b) % M + M - a % M) % M = b % M := by
  have hx := Nat.mod_lt a hM
  have hy := Nat.mod_lt b hM
  rw [Nat.add_mod a b M]
  generalize a % M = x at *
  generalize b % M = y at *
  rcases Nat.lt_or_ge (x + y) M with h | h
  · rw [Nat.mod_eq_of_lt h]
    have e : x + y + M - x = y + M := by omega
    rw [e, Nat.add_mod_right, Nat.mod_eq_of_lt hy]
  · have h2 : (x + y) % M = x + y - M := by
      rw [Nat.mod_eq_sub_mod h, Nat.mod_eq_of_lt (by omega)]
    rw [h2]
    have e : x + y - M + M - x = y := by omega
    rw [e, Nat.mod_eq_of_lt hy]

/-! The stepping operators on the cursors of the sequence -/

theorem fibCursor_zero (w : Nat) (hw : 1 < 2 ^ w) : fibCursor w 0 = {} := by
  simp [fibCursor, fib, fibBefore, Nat.mod_eq_of_lt hw]

theorem preInc_fibCursor (w n : Nat) :
    (fibCursor w n).preInc w = fibCursor w (n + 1) := by
  simp only [fibonacci_IT.preInc, fibCursor, fibBefore, fib_succ]
  congr 1
  · simp [Nat.add_mod]
  · rw [Nat.add_comm, ← Nat.add_mod]

theorem preDec_fibCursor_succ (w n : Nat) (hn : n + 1 < 2 ^ w) :
    (fibCursor w (n + 1)).preDec w = fibCursor w n := by
  have hM : 0 < 2 ^ w := by positivity
  have h1 : (n + 1) % 2 ^ w = n + 1 := Nat.mod_eq_of_lt hn
  have h0 : n % 2 ^ w = n := Nat.mod_eq_of_lt (by omega)
  simp only [fibonacci_IT.preDec, fibCursor, fibBefore, h1, h0]
  rw [if_neg (by omega)]
  congr 1
  · have e : n + 1 + 2 ^ w - 1 = n + 2 ^ w := by omega
    rw [e, Nat.add_mod_right, h0]
  · rw [fib_succ]; exact wrap_sub_cancel _ _ _ hM

theorem preDec_fibCursor_zero (w : Nat) : (fibCursor w 0).preDec w = fibCursor w 0 := by
  simp [fibonacci_IT.preDec, fibCursor]

theorem stepForward_fibCursor (w n k : Nat) :
    stepForward w n (fibCursor w k) = fibCursor w (k + n) := by
  induction n generalizing k with
  | zero => rfl
  | succ n ih =>
    simp only [stepForward, preInc_fibCursor, ih]
    congr 1; omega

/-! The traversal loops -/

theorem rangeForLoop_fibCursor (w N : Nat) (hN : N < 2 ^ w) (last : fibonacci_IT)
    (hl : last.m_idx = N) :
    ∀ (d k fuel : Nat) (out : List Nat), k + d = N → d < fuel →
      rangeForLoop w fuel (fibCursor w k) last out
        = some (out ++ (List.range' k d).map (fun j => fib j % 2 ^ w)) := by
  intro d
  induction d with
  | zero =>
    intro k fuel out hk hf
    obtain ⟨f, rfl⟩ : ∃ f, fuel = f + 1 := ⟨fuel - 1, by omega⟩
    have hk0 : k % 2 ^ w = k := Nat.mod_eq_of_lt (by omega)
    simp [rangeForLoop, fibonacci_IT.ne, fibCursor, hl, hk0]
    omega
  | succ d ih =>
    intro k fuel out hk hf
    obtain ⟨f, rfl⟩ : ∃ f, fuel = f + 1 := ⟨fuel - 1, by omega⟩
    have hk0 : k % 2 ^ w = k := Nat.mod_eq_of_lt (by omega)
    have hne : (fibCursor w k).ne last = true := by
      simp [fibonacci_IT.ne, fibCursor, hl, hk0]; omega
    rw [rangeForLoop, if_pos hne, preInc_fibCursor, ih (k + 1) f _ (by omega) (by omega)]
    simp [List.range', fibonacci_IT.deref, fibCursor]

theorem rangeFor_ofEnd (w N fuel : Nat) (hN : N < 2 ^ w) (hf : N < fuel) :
    rangeFor w fuel (fibonacci_range.ofEnd N)
      = some ((List.range N).map (fun k => fib k % 2 ^ w)) := by
  have hw : 1 < 2 ^ w ∨ N = 0 := by omega
  rcases hw with hw | rfl
  · have h := rangeForLoop_fibCursor w N hN (fibonacci_IT.ofIdx N) rfl N 0 fuel []
      (by omega) hf
    rw [fibCursor_zero w hw] at h
    simpa [rangeFor, fibonacci_range.begin_, fibonacci_range.end_, fibonacci_range.ofEnd,
      List.range_eq_range'] using h
  · obtain ⟨f, rfl⟩ : ∃ f, fuel = f + 1 := ⟨fuel - 1, by omega⟩
    simp [rangeFor, rangeForLoop, fibonacci_range.begin_, fibonacci_range.end_,
      fibonacci_range.ofEnd, fibonacci_IT.ofIdx, fibonacci_IT.ne]

theorem copy_eq_rangeForLoop (w : Nat) :
    ∀ (fuel : Nat) (first last : fibonacci_IT) (v : List Nat),
      copy w fuel first last v = rangeForLoop w fuel first last v := by
  intro fuel
  induction fuel with
  | zero => intro first last v; rfl
  | succ f ih =>
    intro first last v
    simp only [copy, rangeForLoop, ih, List.concat_eq_append]

theorem rangeForLoop_more_fuel (w : Nat) :
    ∀ (fuel extra : Nat) (it last : fibonacci_IT) (out r : List Nat),
      rangeForLoop w fuel it last out = some r →
        rangeForLoop w (fuel + extra) it last out = some r := by
  intro fuel
  induction fuel with
  | zero => intro extra it last out r h; simp [rangeForLoop] at h
  | succ f ih =>
    intro extra it last out r h
    have e : f + 1 + extra = (f + extra) + 1 := by omega
    rw [e, rangeForLoop]
    rw [rangeForLoop] at h
    by_cases hne : it.ne last = true
    · rw [if_pos hne] at h ⊢
      exact ih extra _ _ _ _ h
    · rw [if_neg hne] at h ⊢
      exact h

theorem runSteps_fibCursor (w : Nat) :
    ∀ (ops : List Step) (n : Nat), n + ops.count Step.inc < 2 ^ w →
      ∃ m, m ≤ n + ops.count Step.inc ∧ runSteps w ops (fibCursor w n) = fibCursor w m := by
  intro ops
  induction ops with
  | nil => intro n _; exact ⟨n, by simp, rfl⟩
  | cons s rest ih =>
    intro n hn
    cases s with
    | inc =>
      simp only [List.count_cons_self] at hn ⊢
      obtain ⟨m, hm, e⟩ := ih (n + 1) (by omega)
      exact ⟨m, by omega, by simpa [runSteps, Step.apply, preInc_fibCursor] using e⟩
    | dec =>
      have hc : (Step.dec :: rest).count Step.inc = rest.count Step.inc := by
        simp [List.count_cons]
      rw [hc] at hn ⊢
      cases n with
      | zero =>
        obtain ⟨m, hm, e⟩ := ih 0 hn
        exact ⟨m, hm, by simpa [runSteps, Step.apply, preDec_fibCursor_zero] using e⟩
      | succ k =>
        obtain ⟨m, hm, e⟩ := ih k (by omega)
        refine ⟨m, by omega, ?_⟩
        simpa [runSteps, Step.apply, preDec_fibCursor_succ w k (by omega)] using e

theorem minmaxLoop_fibCursor (w N : Nat) (hN : N < 2 ^ w) (last : fibonacci_IT)
    (hl : last.m_idx = N) :
    ∀ (d k fuel : Nat) (acc : fibonacci_IT × fibonacci_IT), k + d = N → d < fuel →
      minmaxLoop w fuel (fibCursor w k) last acc
        = some (((List.range' k d).map (fibCursor w)).foldl minmaxStep acc) := by
  intro d
  induction d with
  | zero =>
    intro k fuel acc hk hf
    obtain ⟨f, rfl⟩ : ∃ f, fuel = f + 1 := ⟨fuel - 1, by omega⟩
    have hk0 : k % 2 ^ w = k := Nat.mod_eq_of_lt (by omega)
    obtain ⟨mn, mx⟩ := acc
    simp [minmaxLoop, fibonacci_IT.ne, fibCursor, hl, hk0]
    omega
  | succ d ih =>
    intro k fuel acc hk hf
    obtain ⟨f, rfl⟩ : ∃ f, fuel = f + 1 := ⟨fuel - 1, by omega⟩
    have hk0 : k % 2 ^ w = k := Nat.mod_eq_of_lt (by omega)
    have hne : (fibCursor w k).ne last = true := by
      simp [fibonacci_IT.ne, fibCursor, hl, hk0]; omega
    obtain ⟨mn, mx⟩ := acc
    rw [minmaxLoop, if_pos hne]
    simp only [preInc_fibCursor]
    rw [ih (k + 1) f _ (by omega) (by omega)]
    simp [List.range', minmaxStep]

theorem fibCursor_small (w j : Nat) (hw : 13 ≤ w) (hj : j < 20) :
    fibCursor w j = { m_idx := j, m_prev := fibBefore j, m_cur := fib j } := by
  have hM : 8192 ≤ 2 ^ w := by
    calc 8192 = 2 ^ 13 := by norm_num
      _ ≤ 2 ^ w := Nat.pow_le_pow_right (by norm_num) hw
  have hb : ∀ i < 20, fibBefore i < 8192 ∧ fib i < 8192 := by decide
  have h := hb j hj
  simp only [fibCursor]
  rw [Nat.mod_eq_of_lt (by omega), Nat.mod_eq_of_lt (by omega : fibBefore j < 2 ^ w),
    Nat.mod_eq_of_lt (by omega : fib j < 2 ^ w)]

theorem minmax_twenty (w fuel : Nat) (hw : 13 ≤ w) (hf : 20 < fuel) :
    minmax_element w fuel (fibonacci_range.ofEnd 20).begin_ (fibonacci_range.ofEnd 20).end_
      = some ({ m_idx := 0, m_prev := 0, m_cur := 1 },
          { m_idx := 19, m_prev := 4181, m_cur := 6765 }) := by
  have hM : 8192 ≤ 2 ^ w := by
    calc 8192 = 2 ^ 13 := by norm_num
      _ ≤ 2 ^ w := Nat.pow_le_pow_right (by norm_num) hw
  have h := minmaxLoop_fibCursor w 20 (by omega) (fibonacci_IT.ofIdx 20) rfl 20 0 fuel
    ({}, {}) (by omega) hf
  rw [fibCursor_zero w (by omega)] at h
  have hmap : (List.range' 0 20).map (fibCursor w)
      = (List.range' 0 20).map
          (fun j => ({ m_idx := j, m_prev := fibBefore j, m_cur := fib j } : fibonacci_IT)) := by
    apply List.map_congr_left
    intro j hj
    exact fibCursor_small w j hw (by simp [List.mem_range'] at hj; omega)
  rw [hmap] at h
  rw [minmax_element]
  simp only [fibonacci_range.begin_, fibonacci_range.end_, fibonacci_range.ofEnd]
  rw [h]
  decide

/-! The sequence of the program and the standard Fibonacci numbers -/

theorem fib_eq_natFib (n : Nat) : fib n = Nat.fib (n + 1) := by
  induction n using Nat.strongRecOn with
  | _ n ih =>
    match n with
    | 0 => simp [fib]
    | 1 => simp [fib]
    | k + 2 =>
      rw [fib, ih (k + 1) (by omega), ih k (by omega), Nat.fib_add_two (n := k + 1)]
      omega

theorem stepForward_default (w k : Nat) (hw : 1 < 2 ^ w) :
    stepForward w k {} = fibCursor w k := by
  rw [← fibCursor_zero w hw, stepForward_fibCursor]
  simp

theorem callAll_unchanged :
    ∀ (calls : List Access) (r : fibonacci_range),
      callAll calls r
        = (calls.map (fun a => match a with
            | Access.callBegin => r.m_begin
            | Access.callEnd => r.m_end), r) := by
  intro calls
  induction calls with
  | nil => intro r; rfl
  | cons a rest ih =>
    intro r
    cases a <;> simp [callAll, Access.call, ih, fibonacci_range.begin_, fibonacci_range.end_]

theorem wrap_sub_eq_int (M p q : Nat) (hp : p ≤ M) :
    (q + M - p) % M = (((q : Int) - (p : Int)) % (M : Int)).toNat := by
  have h : ((q : Int) - (p : Int)) % (M : Int) = (((q + M - p) % M : Nat) : Int) := by
    rw [Int.natCast_mod, Nat.cast_sub (by omega), Nat.cast_add]
    rw [show (q : Int) + (M : Int) - (p : Int) = (q : Int) - (p : Int) + (M : Int) by ring]
    rw [Int.add_emod_self]
  rw [h, Int.toNat_natCast]

theorem preDec_eq_simultaneous (w : Nat) (c : fibonacci_IT) (hc : c.WellFormed w)
    (hidx : 0 < c.m_idx) : c.preDec w = preDecSimultaneous w c := by
  obtain ⟨i, p, q⟩ := c
  obtain ⟨hi, hp, -⟩ := hc
  simp only at hidx hi hp
  have h3 : (i + 2 ^ w - 1) % 2 ^ w = i - 1 := by
    have e : i + 2 ^ w - 1 = (i - 1) + 2 ^ w := by omega
    rw [e, Nat.add_mod_right, Nat.mod_eq_of_lt (by omega)]
  have h2 := wrap_sub_eq_int (2 ^ w) p q (by omega)
  simp only [fibonacci_IT.preDec, preDecSimultaneous]
  rw [if_neg (by omega), h3, h2]
  simp

theorem deref_stepForward_default (k : Nat) :
    (stepForward 64 k {}).deref = Nat.fib (k + 1) % 2 ^ 64 := by
  rw [stepForward_default 64 k (by decide), ← fib_eq_natFib]
  rfl

/-! Runs of a string -/

theorem runs_cons_ne_nil (c : Char) (t : List Char) :
    ∃ n more, runs (c :: t) = (c, n + 1) :: more := by
  induction t generalizing c with
  | nil => exact ⟨0, [], rfl⟩
  | cons d r ih =>
    obtain ⟨n, more, h⟩ := ih d
    by_cases hcd : c = d
    · subst hcd
      exact ⟨n + 1, more, by rw [runs, h]; simp⟩
    · exact ⟨0, (d, n + 1) :: more, by rw [runs, h]; simp [hcd]⟩

theorem runs_replicate_append (c : Char) (rest : List Char)
    (hrest : rest.head? ≠ some c) :
    ∀ k, runs (c :: (List.replicate k c ++ rest)) = (c, k + 1) :: runs rest := by
  intro k
  induction k with
  | zero =>
    cases rest with
    | nil => rfl
    | cons d r =>
      obtain ⟨n, more, h⟩ := runs_cons_ne_nil d r
      have hcd : c ≠ d := by
        intro e; apply hrest; simp [e]
      simp only [List.replicate, List.nil_append]
      rw [runs, h]
      simp [hcd]
  | succ k ih =>
    rw [List.replicate_succ, List.cons_append, runs, ih]
    simp

theorem exists_run_prefix (c : Char) :
    ∀ t : List Char, ∃ k rest, t = List.replicate k c ++ rest ∧ rest.head? ≠ some c := by
  intro t
  induction t with
  | nil => exact ⟨0, [], rfl, by simp⟩
  | cons d r ih =>
    by_cases hcd : d = c
    · obtain ⟨k, rest, h, hr⟩ := ih
      exact ⟨k + 1, rest, by rw [List.replicate_succ, List.cons_append, ← h, hcd], hr⟩
    · exact ⟨0, d :: r, rfl, by simp [hcd]⟩

theorem find_if_replicate_append (c : Char) (rest : List Char)
    (hrest : rest.head? ≠ some c) :
    ∀ k, find_if (fun nxtV => c != nxtV) (List.replicate k c ++ rest) = rest := by
  intro k
  induction k with
  | zero =>
    cases rest with
    | nil => rfl
    | cons d r =>
      have hcd : c ≠ d := by
        intro e; apply hrest; simp [e]
      simp [find_if, hcd]
  | succ k ih =>
    rw [List.replicate_succ, List.cons_append, find_if]
    simp [ih]

theorem getNext_run (c : Char) (k : Nat) (rest : List Char)
    (hrest : rest.head? ≠ some c) :
    getNext (c :: (List.replicate k c ++ rest)) = (rest, c, k + 1) := by
  have h := find_if_replicate_append c rest hrest (k + 1)
  rw [List.replicate_succ, List.cons_append] at h
  simp only [getNext, h, distance]
  simp
  omega

theorem runs_spec (s : List Char) :
    expandRuns (runs s) = s ∧ (∀ r ∈ runs s, 0 < r.2)
      ∧ List.Chain' (fun a b : Char × Nat => a.1 ≠ b.1) (runs s) := by
  induction s with
  | nil => simp [runs, expandRuns]
  | cons c t ih =>
    obtain ⟨h1, h2, h3⟩ := ih
    rw [runs]
    cases hr : runs t with
    | nil =>
      rw [hr] at h1
      simp only [expandRuns] at h1
      subst h1
      simp [expandRuns]
    | cons r more =>
      obtain ⟨d, n⟩ := r
      rw [hr] at h1 h2 h3
      simp only [expandRuns] at h1
      by_cases hcd : c = d
      · subst hcd
        simp only [if_true]
        refine ⟨?_, ?_, ?_⟩
        · simp only [expandRuns, List.replicate_succ, List.cons_append, h1]
        · intro r hr2
          rcases List.mem_cons.1 hr2 with e | e
          · rw [e]; simp
          · exact h2 r (List.mem_cons_of_mem _ e)
        · cases more with
          | nil => simp
          | cons m ms =>
            rw [List.chain'_cons] at h3 ⊢
            exact h3
      · simp only [hcd, if_false]
        refine ⟨?_, ?_, ?_⟩
        · simp only [expandRuns, List.replicate, List.cons_append, List.nil_append, h1]
        · intro r hr2
          rcases List.mem_cons.1 hr2 with e | e
          · rw [e]; simp
          · exact h2 r e
        · rw [List.chain'_cons]
          exact ⟨hcd, h3⟩

theorem compressLoop_eq :
    ∀ (fuel : Nat) (s res : List Char), s.length < fuel →
      compressLoop fuel s res = some (res ++ encodeRuns (runs s)) := by
  intro fuel
  induction fuel with
  | zero => intro s res h; omega
  | succ f ih =>
    intro s res h
    cases s with
    | nil => simp [compressLoop, runs, encodeRuns]
    | cons c t =>
      obtain ⟨k, rest, ht, hrest⟩ := exists_run_prefix c t
      subst ht
      rw [compressLoop, if_pos (by simp), getNext_run c k rest hrest]
      simp only
      rw [ih rest _ (by simp at h; omega), runs_replicate_append c rest hrest k]
      simp [encodeRuns]
/-! Printing and reading a decimal number -/

theorem digitChar_isDigit (d : Nat) (hd : d < 10) :
    (Nat.digitChar d).isDigit = true ∧ (Nat.digitChar d).toNat - 48 = d := by
  interval_cases d <;> exact ⟨by decide, by decide⟩

theorem toDigitsCore_decimal :
    ∀ (fuel n : Nat) (ds : List Char), n < fuel →
      ∃ L : List Nat, L ≠ [] ∧ (∀ d ∈ L, d < 10)
        ∧ Nat.toDigitsCore 10 fuel n ds = L.map Nat.digitChar ++ ds
        ∧ ∀ acc, L.foldl (fun a d => a * 10 + d) acc = acc * 10 ^ L.length + n := by
  intro fuel
  induction fuel with
  | zero => intro n ds h; omega
  | succ f ih =>
    intro n ds h
    by_cases h0 : n / 10 = 0
    · refine ⟨[n % 10], by simp, ?_, ?_, ?_⟩
      · intro d hd
        simp only [List.mem_singleton] at hd
        omega
      · simp [Nat.toDigitsCore, h0]
      · intro acc
        simp only [List.foldl, List.length, pow_one]
        omega
    · obtain ⟨L, hne, hlt, hcore, hfold⟩ := ih (n / 10) (Nat.digitChar (n % 10) :: ds) (by omega)
      refine ⟨L ++ [n % 10], by simp, ?_, ?_, ?_⟩
      · intro d hd
        rcases List.mem_append.1 hd with e | e
        · exact hlt d e
        · simp only [List.mem_singleton] at e
          omega
      · simp [Nat.toDigitsCore, h0, hcore]
      · intro acc
        rw [List.foldl_append, hfold]
        simp only [List.foldl, List.length_append, List.length_singleton, pow_succ]
        have := Nat.div_add_mod n 10
        nlinarith [this]

theorem toDigits_decimal (n : Nat) :
    ∃ L : List Nat, L ≠ [] ∧ (∀ d ∈ L, d < 10)
      ∧ Nat.toDigits 10 n = L.map Nat.digitChar
      ∧ L.foldl (fun a d => a * 10 + d) 0 = n := by
  obtain ⟨L, hne, hlt, hcore, hfold⟩ := toDigitsCore_decimal (n + 1) n [] (by omega)
  exact ⟨L, hne, hlt, by simpa [Nat.toDigits] using hcore, by simpa using hfold 0⟩

theorem readDigits_digits (c : Char) (rest : List Char) (hc : c.isDigit = false) :
    ∀ (L : List Nat) (acc : Nat), (∀ d ∈ L, d < 10) →
      readDigits (L.map Nat.digitChar ++ c :: rest) acc
        = (L.foldl (fun a d => a * 10 + d) acc, c :: rest) := by
  intro L
  induction L with
  | nil => intro acc _; simp [readDigits, hc]
  | cons d ds ih =>
    intro acc h
    obtain ⟨h1, h2⟩ := digitChar_isDigit d (h d (by simp))
    simp only [List.map_cons, List.cons_append, readDigits, h1, if_true, h2, List.foldl]
    exact ih _ (fun x hx => h x (List.mem_cons_of_mem _ hx))

theorem readSize_toDigits (w n : Nat) (c : Char) (rest : List Char)
    (hc : c.isDigit = false) (hn : n < 2 ^ w) :
    readSize w (Nat.toDigits 10 n ++ c :: rest) = some (n, c :: rest) := by
  obtain ⟨L, hne, hlt, hL, hfold⟩ := toDigits_decimal n
  have hread := readDigits_digits c rest hc L 0 hlt
  rw [hfold] at hread
  rw [hL]
  cases L with
  | nil => exact absurd rfl hne
  | cons d ds =>
    obtain ⟨h1, -⟩ := digitChar_isDigit d (hlt d (by simp))
    have hminus : Nat.digitChar d ≠ '-' := by
      intro e; rw [e] at h1; exact absurd h1 (by decide)
    have hplus : Nat.digitChar d ≠ '+' := by
      intro e; rw [e] at h1; exact absurd h1 (by decide)
    simp only [List.map_cons, List.cons_append] at hread ⊢
    simp only [readSize, hminus, hplus, if_false, h1, if_true, hread, hn]
    simp

theorem decompressLoop_encodeRuns (w : Nat) :
    ∀ (rs : List (Char × Nat)) (fuel : Nat) (res : List Char),
      (∀ r ∈ rs, r.1.isDigit = false ∧ r.2 < 2 ^ w) → rs.length < fuel →
        decompressLoop w fuel (encodeRuns rs) res = some (res ++ expandRuns rs) := by
  intro rs
  induction rs with
  | nil =>
    intro fuel res _ hf
    obtain ⟨f, rfl⟩ : ∃ f, fuel = f + 1 := ⟨fuel - 1, by omega⟩
    simp [decompressLoop, encodeRuns, expandRuns, readSize]
  | cons r more ih =>
    intro fuel res h hf
    obtain ⟨f, rfl⟩ : ∃ f, fuel = f + 1 := ⟨fuel - 1, by simp at hf; omega⟩
    obtain ⟨c, n⟩ := r
    obtain ⟨hc, hn⟩ := h (c, n) (by simp)
    simp only at hc hn
    have hin : encodeRuns ((c, n) :: more) = Nat.toDigits 10 n ++ c :: encodeRuns more := by
      simp [encodeRuns]
    rw [hin, decompressLoop, readSize_toDigits w n c _ hc hn]
    simp only
    rw [ih f _ (fun x hx => h x (List.mem_cons_of_mem _ hx)) (by simp at hf; omega)]
    simp [expandRuns]

theorem runs_mem_bounds (s : List Char) :
    ∀ r ∈ runs s, r.1 ∈ s ∧ r.2 ≤ s.length := by
  induction s with
  | nil => simp [runs]
  | cons c t ih =>
    rw [runs]
    cases hr : runs t with
    | nil => simp
    | cons r0 more =>
      obtain ⟨d, n⟩ := r0
      rw [hr] at ih
      have hd := ih (d, n) (by simp)
      simp only at hd
      by_cases hcd : c = d
      · subst hcd
        simp only [if_true]
        intro r hr2
        rcases List.mem_cons.1 hr2 with e | e
        · rw [e]; simp; omega
        · have := ih r (List.mem_cons_of_mem _ e)
          exact ⟨List.mem_cons_of_mem _ this.1, by simp; omega⟩
      · simp only [hcd, if_false]
        intro r hr2
        rcases List.mem_cons.1 hr2 with e | e
        · rw [e]; simp
        · have := ih r e
          exact ⟨List.mem_cons_of_mem _ this.1, by simp; omega⟩

theorem runs_length_le (s : List Char) : (runs s).length ≤ s.length := by
  induction s with
  | nil => simp [runs]
  | cons c t ih =>
    rw [runs]
    cases hr : runs t with
    | nil => simp
    | cons r0 more =>
      obtain ⟨d, n⟩ := r0
      rw [hr] at ih
      by_cases hcd : c = d
      · subst hcd
        simp only [if_true]
        simp at ih ⊢; omega
      · simp only [hcd, if_false]
        simp at ih ⊢; omega

theorem decompress_compress (w : Nat) (s : List Char) (f1 f2 : Nat)
    (hs : ∀ c ∈ s, c.isDigit = false) (hlen : s.length < 2 ^ w)
    (h1 : s.length < f1) (h2 : s.length < f2) :
    ∃ z, compress f1 s = some z ∧ decompress w f2 z = some s := by
  refine ⟨encodeRuns (runs s), ?_, ?_⟩
  · rw [compress, compressLoop_eq f1 s [] h1]; simp
  · rw [decompress, decompressLoop_encodeRuns w (runs s) f2 []]
    · simp [(runs_spec s).1]
    · intro r hr
      have := runs_mem_bounds s r hr
      exact ⟨hs _ this.1, by omega⟩
    · have := runs_length_le s
      omega
/-! Removal from a vector -/

theorem fast_remove_length {T : Type} (v : List T) (idx : Nat) (h : idx < v.length) :
    (fast_remove v idx).length = v.length - 1 := by
  simp [fast_remove, h]

theorem fast_remove_getElem_opt {T : Type} (v : List T) (idx : Nat) (h : idx < v.length)
    (j : Nat) (hj : j < v.length - 1) :
    (fast_remove v idx)[j]? = if j = idx then v[v.length - 1]? else v[j]? := by
  have hb : v.length - 1 < v.length := by omega
  simp only [fast_remove, h, dite_true]
  rw [List.dropLast_eq_take, List.getElem?_take]
  simp only [List.length_set, hj, if_true]
  rw [List.getElem?_set_ne (by omega)]
  by_cases hji : j = idx
  · subst hji
    simp [h, hb]
  · rw [List.getElem?_set_ne (fun e => hji e.symm)]
    simp [hji]

theorem fast_remove_last {T : Type} (v : List T) (idx : Nat) (h : idx < v.length)
    (hlast : idx = v.length - 1) : fast_remove v idx = v.dropLast := by
  subst hlast
  have hself : v.set (v.length - 1) v[v.length - 1] = v := by
    apply List.ext_getElem?
    intro j
    rw [List.getElem?_set]
    split
    · next e => subst e; simp [h]
    · rfl
  simp [fast_remove, h, hself]

/-! Consecutive duplicates -/

theorem uniqueAfter_replicate_same (p : Char) (rest : List Char) :
    ∀ k, uniqueAfter (fun c1 c2 => decide (c1 = p) && decide (c2 = p)) p
        (List.replicate k p ++ rest)
      = uniqueAfter (fun c1 c2 => decide (c1 = p) && decide (c2 = p)) p rest := by
  intro k
  induction k with
  | zero => simp
  | succ k ih =>
    rw [List.replicate_succ, List.cons_append, uniqueAfter]
    simp [ih]

theorem uniqueAfter_replicate_other (p c : Char) (hc : c ≠ p) (rest : List Char) :
    ∀ k, uniqueAfter (fun c1 c2 => decide (c1 = p) && decide (c2 = p)) c
        (List.replicate k c ++ rest)
      = List.replicate k c
          ++ uniqueAfter (fun c1 c2 => decide (c1 = p) && decide (c2 = p)) c rest := by
  intro k
  induction k with
  | zero => simp
  | succ k ih =>
    rw [List.replicate_succ, List.cons_append, uniqueAfter]
    simp [ih, hc]

theorem uniqueAfter_new_run (p c : Char) (rest : List Char) (hrest : rest.head? ≠ some c) :
    uniqueAfter (fun c1 c2 => decide (c1 = p) && decide (c2 = p)) c rest
      = unique (fun c1 c2 => decide (c1 = p) && decide (c2 = p)) rest := by
  cases rest with
  | nil => rfl
  | cons d r =>
    have hcd : c ≠ d := by
      intro e; apply hrest; simp [e]
    have hp : ¬ (c = p ∧ d = p) := by
      rintro ⟨h1, h2⟩; exact hcd (h1.trans h2.symm)
    rw [uniqueAfter, unique]
    simp only [Bool.and_eq_true, decide_eq_true_eq, hp, if_false]

theorem remove_multiple_char_runs (p : Char) :
    ∀ (n : Nat) (s : List Char), s.length ≤ n →
      remove_multiple_char s p = expandRuns ((runs s).map (collapseRun p)) := by
  intro n
  induction n with
  | zero =>
    intro s hs
    have : s = [] := List.length_eq_zero.1 (by omega)
    subst this
    rfl
  | succ n ih =>
    intro s hs
    cases s with
    | nil => rfl
    | cons c t =>
      obtain ⟨k, rest, ht, hrest⟩ := exists_run_prefix c t
      subst ht
      have hlen : rest.length ≤ n := by
        simp at hs; omega
      have hrec := ih rest hlen
      rw [remove_multiple_char] at hrec
      rw [runs_replicate_append c rest hrest k, remove_multiple_char, unique]
      by_cases hcp : c = p
      · subst hcp
        have hcol : collapseRun c (c, k + 1) = (c, 1) := by simp [collapseRun]
        rw [uniqueAfter_replicate_same, uniqueAfter_new_run c c rest hrest, hrec,
          List.map_cons, hcol]
        simp [expandRuns]
      · have hcol : collapseRun p (c, k + 1) = (c, k + 1) := by simp [collapseRun, hcp]
        rw [uniqueAfter_replicate_other p c hcp, uniqueAfter_new_run p c rest hrest, hrec,
          List.map_cons, hcol]
        simp [expandRuns, List.replicate_succ]

theorem uniqueAfter_chain (p : Char) :
    ∀ (xs : List Char) (kept : Char),
      List.Chain (fun a b => ¬ (a = p ∧ b = p)) kept
        (uniqueAfter (fun c1 c2 => decide (c1 = p) && decide (c2 = p)) kept xs) := by
  intro xs
  induction xs with
  | nil => intro kept; exact List.Chain.nil
  | cons x xs ih =>
    intro kept
    rw [uniqueAfter]
    by_cases h : kept = p ∧ x = p
    · rw [if_pos (by simpa using h)]
      exact ih kept
    · rw [if_neg (by simpa using h)]
      exact List.Chain.cons h (ih x)

theorem uniqueAfter_filter (p : Char) :
    ∀ (xs : List Char) (kept : Char),
      (uniqueAfter (fun c1 c2 => decide (c1 = p) && decide (c2 = p)) kept xs).filter
          (fun c => decide (c ≠ p))
        = xs.filter (fun c => decide (c ≠ p)) := by
  intro xs
  induction xs with
  | nil => intro kept; rfl
  | cons x xs ih =>
    intro kept
    rw [uniqueAfter]
    by_cases h : kept = p ∧ x = p
    · rw [if_pos (by simpa using h), ih kept, List.filter_cons, if_neg (by simp [h.2])]
    · rw [if_neg (by simpa using h), List.filter_cons, List.filter_cons, ih x]

/-! Lookup in a map -/

theorem map_find_eq_some {T : Type} (key : List Char) :
    ∀ (m : List (List Char × T)), (m.map Prod.fst).Nodup →
      ∀ e, map_find m key = some e ↔ e ∈ m ∧ e.1 = key := by
  intro m
  induction m with
  | nil => intro _ e; simp [map_find]
  | cons entry rest ih =>
    intro hm e
    rw [List.map_cons, List.nodup_cons] at hm
    obtain ⟨hnot, hrest⟩ := hm
    rw [map_find]
    by_cases hk : entry.1 = key
    · rw [if_pos hk]
      constructor
      · intro h
        have he : entry = e := Option.some.inj h
        subst he
        exact ⟨List.mem_cons_self _ _, hk⟩
      · rintro ⟨hmem, hek⟩
        rcases List.mem_cons.1 hmem with h | h
        · rw [h]
        · exfalso
          apply hnot
          rw [hk, ← hek]
          exact List.mem_map_of_mem Prod.fst h
    · rw [if_neg hk, ih hrest e]
      constructor
      · rintro ⟨hmem, hek⟩
        exact ⟨List.mem_cons_of_mem _ hmem, hek⟩
      · rintro ⟨hmem, hek⟩
        rcases List.mem_cons.1 hmem with h | h
        · exfalso; apply hk; rw [← h]; exact hek
        · exact ⟨h, hek⟩

theorem map_find_eq_none {T : Type} (key : List Char) :
    ∀ (m : List (List Char × T)), map_find m key = none ↔ ∀ e ∈ m, e.1 ≠ key := by
  intro m
  induction m with
  | nil => simp [map_find]
  | cons entry rest ih =>
    rw [map_find]
    by_cases hk : entry.1 = key
    · rw [if_pos hk]
      simp only [false_iff, reduceCtorEq]
      intro h
      exact h entry (List.mem_cons_self _ _) hk
    · rw [if_neg hk, ih]
      constructor
      · intro h e hmem
        rcases List.mem_cons.1 hmem with h1 | h1
        · rw [h1]; exact hk
        · exact h e h1
      · intro h e hmem
        exact h e (List.mem_cons_of_mem _ hmem)

theorem maybe_get_eq {T : Type} (m : List (List Char × T)) (key : List Char) :
    maybe_get m key = Except.ok ((map_find m key).map Prod.snd) := by
  rw [maybe_get, map_at]
  cases h : map_find m key with
  | none => simp
  | some e => simp

/-! Addition to each element -/

theorem addToEach_eq_map {T : Type} (plus : T → T → T) (x : T) :
    ∀ v : List T, addToEach plus v x = v.map (fun e => plus e x) := by
  intro v
  induction v with
  | nil => rfl
  | cons e rest ih => rw [addToEach, ih, List.map_cons]

/-! The number of iterations of the compression loop -/

theorem compressLoop_exact :
    ∀ (fuel : Nat) (s res : List Char),
      compressLoop fuel s res
        = if (runs s).length < fuel then some (res ++ encodeRuns (runs s)) else none := by
  intro fuel
  induction fuel with
  | zero => intro s res; simp [compressLoop]
  | succ f ih =>
    intro s res
    cases s with
    | nil => simp [compressLoop, runs, encodeRuns]
    | cons c t =>
      obtain ⟨k, rest, ht, hrest⟩ := exists_run_prefix c t
      subst ht
      rw [compressLoop, if_pos (by simp), getNext_run c k rest hrest]
      simp only
      rw [ih rest, runs_replicate_append c rest hrest k]
      by_cases h : (runs rest).length < f
      · rw [if_pos h, if_pos (by simp; omega)]
        simp [encodeRuns]
      · rw [if_neg h, if_neg (by simp; omega)]

theorem getNext_cons (c : Char) (t : List Char) :
    ∃ n rest, getNext (c :: t) = (rest, c, n) ∧ 1 ≤ n
      ∧ c :: t = List.replicate n c ++ rest ∧ rest.head? ≠ some c
      ∧ rest = (c :: t).drop n ∧ rest.length < (c :: t).length := by
  obtain ⟨k, rest, ht, hrest⟩ := exists_run_prefix c t
  subst ht
  refine ⟨k + 1, rest, getNext_run c k rest hrest, by omega, ?_, hrest, ?_, ?_⟩
  · rw [List.replicate_succ, List.cons_append]
  · have e : c :: (List.replicate k c ++ rest) = List.replicate (k + 1) c ++ rest := by
      rw [List.replicate_succ, List.cons_append]
    rw [e, List.drop_left' (by simp)]
  · simp
    omega

/-! The claims -/

/-- C1, amended for wraparound.  For every length `N` that fits a `size_t` of
`w` bits, the range-based `for` over `fibonacci_range(N)` ends (any fuel above
`N` is enough) having produced exactly the `N` values `fib 0 % 2 ^ w`, ...,
`fib (N - 1) % 2 ^ w`, in this order: the `k`-th value is the `k`-th term of
the sequence `1 1 2 3 5 8 ...` reduced modulo `2 ^ w`. -/
theorem traversal_yields_fib_mod (w N fuel : Nat) (hN : N < 2 ^ w) (hf : N < fuel) :
    rangeFor w fuel (fibonacci_range.ofEnd N)
        = some ((List.range N).map (fun k => fib k % 2 ^ w))
      ∧ ((List.range N).map (fun k => fib k % 2 ^ w)).length = N :=
  ⟨rangeFor_ofEnd w N fuel hN hf, by simp⟩

/-- Witness of C1: with a 64-bit `size_t`, `fibonacci_range(20)` is traversed
into the twenty values the program prints. -/
theorem traversal_yields_fib_mod_witness :
    (20 < 2 ^ 64 ∧ 20 < 21) ∧
      rangeFor 64 21 (fibonacci_range.ofEnd 20)
        = some [1, 1, 2, 3, 5, 8, 13, 21, 34, 55, 89, 144, 233, 377, 610, 987, 1597,
            2584, 4181, 6765] :=
  ⟨by decide, (traversal_yields_fib_mod 64 20 21 (by decide) (by decide)).1.trans (by decide)⟩

set_option maxRecDepth 100000 in
/-- Counterexample to C1 as stated: with a 64-bit `size_t` no amount of fuel
makes the traversal of `fibonacci_range(94)` produce the first 94 terms of the
sequence, because the value at position 93 has wrapped. -/
theorem traversal_94_not_fib :
    ¬ ∃ fuel, rangeFor 64 fuel (fibonacci_range.ofEnd 94)
        = some ((List.range 94).map fib) := by
  rintro ⟨fuel, h⟩
  have h1 := rangeForLoop_more_fuel 64 fuel 95 _ _ _ _ h
  have h2 := rangeFor_ofEnd 64 94 (fuel + 95) (by decide) (by omega)
  rw [rangeFor] at h2
  rw [h2] at h1
  revert h1
  decide

/-- C2, amended.  Every cursor obtained from the default cursor (which is also
`begin()` of every range) by a sequence of `operator++` and `operator--` calls
with fewer than `2 ^ w` increments satisfies `m_cur = fib m_idx % 2 ^ w` and
`m_prev = fib (m_idx - 1) % 2 ^ w`, where `fib (-1) = 0`. -/
theorem stepped_cursor_invariant (w : Nat) (ops : List Step) (hw : 0 < w)
    (hops : ops.count Step.inc < 2 ^ w) :
    (runSteps w ops {}).m_cur = fib (runSteps w ops {}).m_idx % 2 ^ w
      ∧ (runSteps w ops {}).m_prev = fibBefore (runSteps w ops {}).m_idx % 2 ^ w := by
  have h1 : 1 < 2 ^ w := Nat.one_lt_two_pow (by omega)
  obtain ⟨m, hm, e⟩ := runSteps_fibCursor w ops 0 (by omega)
  rw [fibCursor_zero w h1] at e
  have hm0 : m % 2 ^ w = m := Nat.mod_eq_of_lt (by omega)
  rw [e]
  simp [fibCursor, hm0]

/-- Witness of C2: three steps forward and one back on a 64-bit `size_t`. -/
theorem stepped_cursor_invariant_witness :
    (0 < 64 ∧ [Step.inc, Step.inc, Step.inc, Step.dec].count Step.inc < 2 ^ 64) ∧
      (runSteps 64 [Step.inc, Step.inc, Step.inc, Step.dec] {}).m_cur
        = fib (runSteps 64 [Step.inc, Step.inc, Step.inc, Step.dec] {}).m_idx % 2 ^ 64
      ∧ (runSteps 64 [Step.inc, Step.inc, Step.inc, Step.dec] {}).m_prev
        = fibBefore (runSteps 64 [Step.inc, Step.inc, Step.inc, Step.dec] {}).m_idx % 2 ^ 64 :=
  ⟨by decide, stepped_cursor_invariant 64 _ (by decide) (by decide)⟩

set_option maxRecDepth 100000 in
/-- Counterexample to C2 as stated: on a 64-bit `size_t` the cursor reached from
the default cursor by 93 calls of `operator++` stands at index 93 and holds
`1293530146158671551`, which is not `fib 93`. -/
theorem cursor_93_not_fib :
    (runSteps 64 (List.replicate 93 Step.inc) {}).m_idx = 93
      ∧ (runSteps 64 (List.replicate 93 Step.inc) {}).m_cur = 1293530146158671551
      ∧ (runSteps 64 (List.replicate 93 Step.inc) {}).m_cur
          ≠ fib (runSteps 64 (List.replicate 93 Step.inc) {}).m_idx := by
  decide

/-- C3, evaluated at `N = 2`: `end()` of `fibonacci_range(2)` stands at index 2
with the default values `m_prev = 0` and `m_cur = 1`, whereas the default
cursor stepped forward twice stands at index 2 with `m_prev = 1` and
`m_cur = 2`. -/
theorem end_cursor_not_stepped :
    (fibonacci_range.ofEnd 2).end_ = { m_idx := 2, m_prev := 0, m_cur := 1 }
      ∧ stepForward 64 2 {} = { m_idx := 2, m_prev := 1, m_cur := 2 }
      ∧ (fibonacci_range.ofEnd 2).end_ ≠ stepForward 64 2 {} := by
  decide

/-- C4, amended.  For every well-formed cursor `c` whose index is below the
largest `size_t` value `2 ^ w - 1`, `operator++` followed by `operator--` gives
back `c`: same `m_idx`, same `m_prev`, same `m_cur`.  The cursor need not be
reachable and its index may be 0. -/
theorem preDec_preInc_cancel (w : Nat) (c : fibonacci_IT) (hc : c.WellFormed w)
    (hidx : c.m_idx + 1 < 2 ^ w) :
    (c.preInc w).preDec w = c := by
  obtain ⟨i, p, q⟩ := c
  obtain ⟨-, hp, hq⟩ := hc
  simp only at hidx hp hq
  have hM : 0 < 2 ^ w := by positivity
  have h1 : (i + 1) % 2 ^ w = i + 1 := Nat.mod_eq_of_lt hidx
  have h2 : ((p + q) % 2 ^ w + 2 ^ w - q) % 2 ^ w = p := by
    have h := wrap_sub_cancel (2 ^ w) q p hM
    rwa [Nat.mod_eq_of_lt hq, Nat.mod_eq_of_lt hp, Nat.add_comm q p] at h
  have h3 : (i + 1 + 2 ^ w - 1) % 2 ^ w = i := by
    have e : i + 1 + 2 ^ w - 1 = i + 2 ^ w := by omega
    rw [e, Nat.add_mod_right, Nat.mod_eq_of_lt (by omega)]
  have h4 : i % 2 ^ w = i := Nat.mod_eq_of_lt (by omega)
  simp [fibonacci_IT.preInc, fibonacci_IT.preDec, h1, h2, h3, h4]

/-- Witness of C4: the cursor `(5, 5, 8)` on a 64-bit `size_t`. -/
theorem preDec_preInc_cancel_witness :
    (fibonacci_IT.WellFormed 64 { m_idx := 5, m_prev := 5, m_cur := 8 }
        ∧ (5 : Nat) + 1 < 2 ^ 64) ∧
      (fibonacci_IT.preInc 64 { m_idx := 5, m_prev := 5, m_cur := 8 }).preDec 64
        = { m_idx := 5, m_prev := 5, m_cur := 8 } :=
  ⟨by decide, preDec_preInc_cancel 64 _ (by decide) (by decide)⟩

/-- Counterexample to C4 as stated: on a 64-bit `size_t` the cursor `end()` of
`fibonacci_range(2 ^ 64 - 1)` has a positive index, yet `operator++` wraps its
index to 0, where `operator--` does nothing, so the pair does not give the
cursor back. -/
theorem preDec_preInc_at_max :
    0 < (fibonacci_range.ofEnd (2 ^ 64 - 1)).end_.m_idx
      ∧ (fibonacci_range.ofEnd (2 ^ 64 - 1)).end_.WellFormed 64
      ∧ (((fibonacci_range.ofEnd (2 ^ 64 - 1)).end_.preInc 64).preDec 64).m_idx = 0
      ∧ ((fibonacci_range.ofEnd (2 ^ 64 - 1)).end_.preInc 64).preDec 64
          ≠ (fibonacci_range.ofEnd (2 ^ 64 - 1)).end_ := by
  decide

/-- C5.  For every cursor with `m_idx = 0`, whatever its `m_prev` and `m_cur`
and whatever the width of `size_t`, `operator--` returns the cursor unchanged. -/
theorem preDec_at_zero (w : Nat) (c : fibonacci_IT) (h : c.m_idx = 0) :
    c.preDec w = c := by
  simp [fibonacci_IT.preDec, h]

/-- Witness of C5: a cursor at index 0 carrying the values 7 and 9. -/
theorem preDec_at_zero_witness :
    ({ m_idx := 0, m_prev := 7, m_cur := 9 } : fibonacci_IT).m_idx = 0 ∧
      fibonacci_IT.preDec 64 { m_idx := 0, m_prev := 7, m_cur := 9 }
        = { m_idx := 0, m_prev := 7, m_cur := 9 } :=
  ⟨rfl, preDec_at_zero 64 _ rfl⟩

/-- C6.  For all cursors `a` and `b` exactly one of `a == b`, `a < b`, `b < a`
holds, and `a > b` has the value of `b < a`. -/
theorem comparison_total_order (a b : fibonacci_IT) :
    ((a.eq b = true ∧ a.lt b = false ∧ b.lt a = false)
        ∨ (a.eq b = false ∧ a.lt b = true ∧ b.lt a = false)
        ∨ (a.eq b = false ∧ a.lt b = false ∧ b.lt a = true))
      ∧ a.gt b = b.lt a := by
  simp only [fibonacci_IT.eq, fibonacci_IT.ne, fibonacci_IT.lt, fibonacci_IT.gt,
    fibonacci_IT.le]
  rcases Nat.lt_trichotomy a.m_idx b.m_idx with h | h | h
  · have h1 : ¬ b.m_idx < a.m_idx := by omega
    have h2 : a.m_idx ≠ b.m_idx := by omega
    have h3 : a.m_idx ≤ b.m_idx := by omega
    simp [h, h1, h2, h3]
  · simp [h]
  · have h1 : ¬ a.m_idx < b.m_idx := by omega
    have h2 : a.m_idx ≠ b.m_idx := by omega
    have h3 : ¬ a.m_idx ≤ b.m_idx := by omega
    simp [h, h1, h2, h3]

/-- C7.  On every `size_t` of at least 13 bits, `std::minmax_element` over
`begin()`..`end()` of `fibonacci_range(20)` ends (any fuel above 20 is enough)
with a minimum whose value is 1 and a maximum whose value is 6765. -/
theorem minmax_of_twenty (w fuel : Nat) (hw : 13 ≤ w) (hf : 20 < fuel) :
    (minmax_element w fuel (fibonacci_range.ofEnd 20).begin_
        (fibonacci_range.ofEnd 20).end_).map (fun p => (p.1.deref, p.2.deref))
      = some (1, 6765) := by
  rw [minmax_twenty w fuel hw hf]
  rfl

/-- Witness of C7: a 64-bit `size_t` and 21 iterations. -/
theorem minmax_of_twenty_witness :
    (13 ≤ 64 ∧ 20 < 21) ∧
      (minmax_element 64 21 (fibonacci_range.ofEnd 20).begin_
          (fibonacci_range.ofEnd 20).end_).map (fun p => (p.1.deref, p.2.deref))
        = some (1, 6765) :=
  ⟨by decide, minmax_of_twenty 64 21 (by decide) (by decide)⟩

/-- C8.  For every length `N` that fits a `size_t` of `w` bits, `std::copy` of
`begin()`..`end()` of `fibonacci_range(N)` into an empty vector ends (any fuel
above `N` is enough) with exactly the list of values the range-based `for`
produces, and that list has `N` elements. -/
theorem copy_eq_traversal (w N fuel : Nat) (hN : N < 2 ^ w) (hf : N < fuel) :
    copy w fuel (fibonacci_range.ofEnd N).begin_ (fibonacci_range.ofEnd N).end_ []
        = rangeFor w fuel (fibonacci_range.ofEnd N)
      ∧ ∃ vs, rangeFor w fuel (fibonacci_range.ofEnd N) = some vs ∧ vs.length = N := by
  refine ⟨by rw [copy_eq_rangeForLoop, rangeFor], _, rangeFor_ofEnd w N fuel hN hf, by simp⟩

/-- Witness of C8: with a 64-bit `size_t`, the copy of `fibonacci_range(20)` is
the twenty values the program prints, as is its traversal. -/
theorem copy_eq_traversal_witness :
    (20 < 2 ^ 64 ∧ 20 < 21) ∧
      (copy 64 21 (fibonacci_range.ofEnd 20).begin_ (fibonacci_range.ofEnd 20).end_ []
          = rangeFor 64 21 (fibonacci_range.ofEnd 20)
        ∧ ∃ vs, rangeFor 64 21 (fibonacci_range.ofEnd 20) = some vs ∧ vs.length = 20) ∧
      copy 64 21 (fibonacci_range.ofEnd 20).begin_ (fibonacci_range.ofEnd 20).end_ []
        = some [1, 1, 2, 3, 5, 8, 13, 21, 34, 55, 89, 144, 233, 377, 610, 987, 1597,
            2584, 4181, 6765] :=
  ⟨by decide, copy_eq_traversal 64 20 21 (by decide) (by decide), by decide⟩

/-- C9.  For `fibonacci_range(0)`, `begin() == end()` holds, and the range-based
`for`, `std::copy` and `std::minmax_element` all stop at once, whatever the
width of `size_t`: no value is produced and the scan stays at `begin()`. -/
theorem empty_range_no_values (w fuel : Nat) :
    (fibonacci_range.ofEnd 0).begin_.eq (fibonacci_range.ofEnd 0).end_ = true
      ∧ rangeFor w (fuel + 1) (fibonacci_range.ofEnd 0) = some []
      ∧ copy w (fuel + 1) (fibonacci_range.ofEnd 0).begin_
          (fibonacci_range.ofEnd 0).end_ [] = some []
      ∧ minmax_element w (fuel + 1) (fibonacci_range.ofEnd 0).begin_
          (fibonacci_range.ofEnd 0).end_
        = some ((fibonacci_range.ofEnd 0).begin_, (fibonacci_range.ofEnd 0).begin_) := by
  refine ⟨by decide, ?_, ?_, ?_⟩ <;>
    simp [rangeFor, rangeForLoop, copy, minmax_element, minmaxLoop, fibonacci_range.begin_,
      fibonacci_range.end_, fibonacci_range.ofEnd, fibonacci_IT.ofIdx, fibonacci_IT.ne]

/-- C10.  On every `size_t` that can hold the length 1, the range-based `for`
over `fibonacci_range(1)` ends (any fuel above 1 is enough) having produced
exactly the one-element sequence `[1]`. -/
theorem range_one_yields_one (w fuel : Nat) (hw : 1 < 2 ^ w) (hf : 1 < fuel) :
    rangeFor w fuel (fibonacci_range.ofEnd 1) = some [1] := by
  rw [rangeFor_ofEnd w 1 fuel hw hf, show List.range 1 = [0] from rfl]
  simp [fib, Nat.mod_eq_of_lt hw]

/-- Witness of C10: a 64-bit `size_t` and two iterations. -/
theorem range_one_yields_one_witness :
    (1 < 2 ^ 64 ∧ 1 < 2) ∧ rangeFor 64 2 (fibonacci_range.ofEnd 1) = some [1] :=
  ⟨by decide, range_one_yields_one 64 2 (by decide) (by decide)⟩

/-- C11.  For every `N`, `end()` of `fibonacci_range(N)` has index `N` and
`begin()` has index 0; and whatever sequence of `begin()` and `end()` calls is
made on the range, the range afterwards is the range constructed, every
`begin()` call has returned the default cursor and every `end()` call the
cursor the constructor built. -/
theorem range_invariant (N : Nat) (calls : List Access) :
    (fibonacci_range.ofEnd N).end_.m_idx = N
      ∧ (fibonacci_range.ofEnd N).begin_.m_idx = 0
      ∧ (callAll calls (fibonacci_range.ofEnd N)).2 = fibonacci_range.ofEnd N
      ∧ (callAll calls (fibonacci_range.ofEnd N)).1
          = calls.map (fun a => match a with
              | Access.callBegin => ({} : fibonacci_IT)
              | Access.callEnd => fibonacci_IT.ofIdx N) := by
  rw [callAll_unchanged]
  exact ⟨rfl, rfl, rfl, rfl⟩

/-- C12.  For every cursor `(idx, prev, cur)` and every width `w`, `operator++`
produces `((idx + 1) % 2 ^ w, cur, (prev + cur) % 2 ^ w)`: the swap followed by
`+=` of the source equals the simultaneous assignment of the specification, and
no state is refused. -/
theorem preInc_simultaneous (w idx prev cur : Nat) :
    fibonacci_IT.preInc w { m_idx := idx, m_prev := prev, m_cur := cur }
        = { m_idx := (idx + 1) % 2 ^ w, m_prev := cur, m_cur := (prev + cur) % 2 ^ w }
      ∧ fibonacci_IT.preInc w { m_idx := idx, m_prev := prev, m_cur := cur }
        = preIncSimultaneous w { m_idx := idx, m_prev := prev, m_cur := cur } :=
  ⟨rfl, rfl⟩

/-- C14.  For all cursors `a` and `b`, `a == b` holds if and only if their
indices are equal, whatever their `m_prev` and `m_cur`, and `a != b` is the
negation of `a == b`. -/
theorem eq_iff_same_index (a b : fibonacci_IT) :
    (a.eq b = true ↔ a.m_idx = b.m_idx) ∧ a.ne b = !(a.eq b) := by
  simp [fibonacci_IT.eq, fibonacci_IT.ne]

/-- C15.  For all cursors `a` and `b`, `a > b` is the negation of `a <= b` and
`a >= b` the negation of `a < b`, so `a > b` and `a <= b` never both hold, and
neither do `a >= b` and `a < b`. -/
theorem derived_comparisons_negate (a b : fibonacci_IT) :
    a.gt b = !(a.le b) ∧ a.ge b = !(a.lt b)
      ∧ ¬ (a.gt b = true ∧ a.le b = true) ∧ ¬ (a.ge b = true ∧ a.lt b = true) := by
  simp [fibonacci_IT.gt, fibonacci_IT.ge]

/-- C13.  For every well-formed cursor `(idx, prev, cur)` with `idx > 0`,
`operator--` produces `(idx - 1, (cur - prev) mod 2 ^ w, prev)`: the new
previous is the integer difference `cur - prev` reduced modulo `2 ^ w`, the new
current is the previous value held before the step, and the index is one less. -/
theorem preDec_positive_index (w : Nat) (c : fibonacci_IT) (hc : c.WellFormed w)
    (hidx : 0 < c.m_idx) :
    c.preDec w
      = { m_idx := c.m_idx - 1,
          m_prev := (((c.m_cur : Int) - (c.m_prev : Int)) % (2 : Int) ^ w).toNat,
          m_cur := c.m_prev } :=
  preDec_eq_simultaneous w c hc hidx

/-- Witness of C13: the cursor `(5, 5, 8)` on a 64-bit `size_t` steps back to
`(4, 3, 5)`. -/
theorem preDec_positive_index_witness :
    (fibonacci_IT.WellFormed 64 { m_idx := 5, m_prev := 5, m_cur := 8 }
        ∧ 0 < ({ m_idx := 5, m_prev := 5, m_cur := 8 } : fibonacci_IT).m_idx) ∧
      fibonacci_IT.preDec 64 { m_idx := 5, m_prev := 5, m_cur := 8 }
        = { m_idx := 4, m_prev := 3, m_cur := 5 } :=
  ⟨by decide, (preDec_positive_index 64 _ (by decide) (by decide)).trans (by decide)⟩

set_option maxRecDepth 100000 in
/-- C16.  With a 64-bit `size_t`, the value dereferenced after `k` calls of
`operator++` from `begin()` is `F (k + 1) mod 2 ^ 64` for every `k`, where `F`
is the standard Fibonacci sequence (`F 1 = F 2 = 1`); it is `F (k + 1)` itself
for every `k ≤ 92`, with `12200160415121876738` at `k = 92`; at `k = 93` it is
`1293530146158671551` whereas `F 94 = 19740274219868223167`. -/
theorem overflow_wraps_silently (N k : Nat) :
    (stepForward 64 k (fibonacci_range.ofEnd N).begin_).deref = Nat.fib (k + 1) % 2 ^ 64
      ∧ (k ≤ 92 → (stepForward 64 k (fibonacci_range.ofEnd N).begin_).deref = Nat.fib (k + 1))
      ∧ (stepForward 64 92 (fibonacci_range.ofEnd N).begin_).deref = 12200160415121876738
      ∧ (stepForward 64 93 (fibonacci_range.ofEnd N).begin_).deref = 1293530146158671551
      ∧ Nat.fib (93 + 1) = 19740274219868223167 := by
  have hb : (fibonacci_range.ofEnd N).begin_ = {} := rfl
  have h93 : Nat.fib 93 = 12200160415121876738 := by
    rw [← fib_eq_natFib]; decide
  have h94 : Nat.fib 94 = 19740274219868223167 := by
    rw [← fib_eq_natFib]; decide
  rw [hb]
  refine ⟨deref_stepForward_default k, ?_, ?_, ?_, h94⟩
  · intro hk
    rw [deref_stepForward_default k]
    apply Nat.mod_eq_of_lt
    calc Nat.fib (k + 1) ≤ Nat.fib 93 := Nat.fib_mono (by omega)
      _ < 2 ^ 64 := by rw [h93]; decide
  · rw [deref_stepForward_default 92, h93]; decide
  · rw [deref_stepForward_default 93, h94]; decide

/-- Witness of C16: ten steps from `begin()` of `fibonacci_range(20)` give
`F 11 = 89`. -/
theorem overflow_wraps_silently_witness :
    (10 : Nat) ≤ 92 ∧
      (stepForward 64 10 (fibonacci_range.ofEnd 20).begin_).deref = 89 :=
  ⟨by decide, ((overflow_wraps_silently 20 10).2.1 (by decide)).trans (by decide)⟩

/-- C17.  For every string `s`, `compress` ends (any fuel above the length of
`s` is enough) with the run-length encoding of `s`: the concatenation, over the
runs `runs s` taken left to right, of the decimal run length followed by the
run's character.  The runs are the maximal runs of identical characters of
`s`: written out in full they give `s` back, each has a positive length, and
neighbouring runs have different characters. -/
theorem compress_is_run_length (s : List Char) (fuel : Nat) (hf : s.length < fuel) :
    compress fuel s = some (encodeRuns (runs s))
      ∧ expandRuns (runs s) = s
      ∧ (∀ r ∈ runs s, 0 < r.2)
      ∧ List.Chain' (fun a b : Char × Nat => a.1 ≠ b.1) (runs s) := by
  refine ⟨?_, runs_spec s⟩
  rw [compress, compressLoop_eq fuel s [] hf]
  simp

/-- Witness of C17: `compress("Okkk")` is `"1O3k"`, and `compress("")` is the
empty string. -/
theorem compress_is_run_length_witness :
    "Okkk".toList.length < 5
      ∧ compress 5 "Okkk".toList = some "1O3k".toList
      ∧ compress 1 "".toList = some "".toList :=
  ⟨by decide, (compress_is_run_length "Okkk".toList 5 (by decide)).1.trans (by decide),
    by decide⟩

/-- C18.  For every string `s` without a decimal digit whose length fits a
`size_t` of `w` bits, `compress` ends with a string from which `decompress`
ends with `s` (any fuel above the length of `s` is enough for either). -/
theorem decompress_undoes_compress (w : Nat) (s : List Char) (f1 f2 : Nat)
    (hs : ∀ c ∈ s, c.isDigit = false) (hlen : s.length < 2 ^ w)
    (h1 : s.length < f1) (h2 : s.length < f2) :
    (compress f1 s).bind (decompress w f2) = some s := by
  obtain ⟨z, hz, hd⟩ := decompress_compress w s f1 f2 hs hlen h1 h2
  rw [hz]
  exact hd

set_option maxRecDepth 100000 in
/-- Witness of C18: the two strings of the program, on a 64-bit `size_t`. -/
theorem decompress_undoes_compress_witness :
    ((∀ c ∈ "Okkk".toList, c.isDigit = false) ∧ "Okkk".toList.length < 2 ^ 64
        ∧ "Okkk".toList.length < 5) ∧
      (compress 5 "Okkk".toList).bind (decompress 64 5) = some "Okkk".toList ∧
      (compress 40 "Heeellllooooo wooooooooooooooooorld!!!".toList).bind (decompress 64 40)
        = some "Heeellllooooo wooooooooooooooooorld!!!".toList :=
  ⟨by decide,
    decompress_undoes_compress 64 "Okkk".toList 5 5 (by decide) (by decide) (by decide)
      (by decide),
    by decide⟩

/-- C19.  For every vector `v` and every `p_idx < v.size()`, `fast_remove` by
index leaves a vector of size `v.size() - 1` in which position `p_idx` holds
the former last element and every other position holds what it held in `v`;
when `p_idx` is the last position the result is `v` without its last
element. -/
theorem fast_remove_by_index {T : Type} (v : List T) (p_idx : Nat) (h : p_idx < v.length) :
    (fast_remove v p_idx).length = v.length - 1
      ∧ (∀ j, j < v.length - 1 →
          (fast_remove v p_idx)[j]? = if j = p_idx then v[v.length - 1]? else v[j]?)
      ∧ (p_idx = v.length - 1 → fast_remove v p_idx = v.dropLast) :=
  ⟨fast_remove_length v p_idx h, fast_remove_getElem_opt v p_idx h, fast_remove_last v p_idx h⟩

/-- Witness of C19: the vector of the program with `p_idx = 5`. -/
theorem fast_remove_by_index_witness :
    5 < [5, 172, -3, 17, 11, 3985, -112, (6 : Int)].length
      ∧ fast_remove [5, 172, -3, 17, 11, 3985, -112, (6 : Int)] 5
          = [5, 172, -3, 17, 11, 6, -112]
      ∧ (fast_remove [5, 172, -3, 17, 11, 3985, -112, (6 : Int)] 5).length
          = [5, 172, -3, 17, 11, 3985, -112, (6 : Int)].length - 1 :=
  ⟨by decide, by decide,
    (fast_remove_by_index [5, 172, -3, 17, 11, 3985, -112, (6 : Int)] 5 (by decide)).1⟩

/-- C20.  For every string `s` and character `p`, `remove_multiple_char`
followed by `erase` leaves `s` with each maximal run of `p` collapsed to a
single `p` and every other run as it was; the result has no two adjacent `p`,
and its characters other than `p` are those of `s`, in the same order. -/
theorem remove_multiple_char_collapses (s : List Char) (p : Char) :
    remove_multiple_char s p = expandRuns ((runs s).map (collapseRun p))
      ∧ List.Chain' (fun a b => ¬ (a = p ∧ b = p)) (remove_multiple_char s p)
      ∧ (remove_multiple_char s p).filter (fun c => decide (c ≠ p))
          = s.filter (fun c => decide (c ≠ p)) := by
  refine ⟨remove_multiple_char_runs p s.length s (le_refl _), ?_, ?_⟩
  · cases s with
    | nil => exact List.chain'_nil
    | cons c t => exact uniqueAfter_chain p t c
  · cases s with
    | nil => rfl
    | cons c t =>
      rw [remove_multiple_char, unique, List.filter_cons, List.filter_cons,
        uniqueAfter_filter p t c]

/-- The string of the program: `"Hello    beautiful       World!"` with `' '`
becomes `"Hello beautiful World!"`, which is its runs with those of `' '`
collapsed. -/
theorem remove_multiple_char_collapses_witness :
    remove_multiple_char "Hello    beautiful       World!".toList ' '
        = "Hello beautiful World!".toList
      ∧ expandRuns ((runs "Hello    beautiful       World!".toList).map (collapseRun ' '))
        = "Hello beautiful World!".toList :=
  ⟨by decide,
    (remove_multiple_char_collapses "Hello    beautiful       World!".toList ' ').1.symm.trans
      (by decide)⟩

/-- C21.  For every map `m` (its keys distinct) and every key `k`, `maybe_get`
returns normally: it holds the value `v` exactly when `m` has the entry
`(k, v)`, it is `std::nullopt` exactly when `m` has no entry for `k`, and it
never leaves with an exception. -/
theorem maybe_get_signals_failure {T : Type} (m : List (List Char × T)) (k : List Char)
    (hm : (m.map Prod.fst).Nodup) :
    (∀ v, maybe_get m k = Except.ok (some v) ↔ (k, v) ∈ m)
      ∧ (maybe_get m k = Except.ok none ↔ ∀ v, (k, v) ∉ m)
      ∧ (∀ e, maybe_get m k ≠ Except.error e) := by
  rw [maybe_get_eq]
  refine ⟨?_, ?_, ?_⟩
  · intro v
    constructor
    · intro h
      have h1 : (map_find m k).map Prod.snd = some v := Except.ok.inj h
      obtain ⟨e, he, hv⟩ := Option.map_eq_some'.1 h1
      obtain ⟨hmem, hk⟩ := (map_find_eq_some k m hm e).1 he
      have : e = (k, v) := Prod.ext hk hv
      rw [← this]
      exact hmem
    · intro h
      have := (map_find_eq_some k m hm (k, v)).2 ⟨h, rfl⟩
      rw [this]
      rfl
  · constructor
    · intro h v hmem
      have h1 : (map_find m k).map Prod.snd = none := Except.ok.inj h
      have h2 : map_find m k = none := Option.map_eq_none'.1 h1
      exact (map_find_eq_none k m).1 h2 (k, v) hmem rfl
    · intro h
      have h2 : map_find m k = none := by
        rw [map_find_eq_none]
        intro e hmem hk
        apply h e.2
        have : e = (k, e.2) := Prod.ext hk rfl
        rw [← this]
        exact hmem
      rw [h2]
      rfl
  · intro e h
    cases h

/-- Witness of C21: on the map of the program the key `"CWD"` gives
`"/home/foo/bar"` and the key `"TEST"` gives `std::nullopt`. -/
theorem maybe_get_signals_failure_witness :
    ([("Hello".toList, "World!".toList), ("CWD".toList, "/home/foo/bar".toList)].map
        Prod.fst).Nodup
      ∧ maybe_get [("Hello".toList, "World!".toList), ("CWD".toList, "/home/foo/bar".toList)]
          "CWD".toList = Except.ok (some "/home/foo/bar".toList)
      ∧ maybe_get [("Hello".toList, "World!".toList), ("CWD".toList, "/home/foo/bar".toList)]
          "TEST".toList = Except.ok none :=
  ⟨by decide,
    ((maybe_get_signals_failure
      [("Hello".toList, "World!".toList), ("CWD".toList, "/home/foo/bar".toList)]
      "CWD".toList (by decide)).1 "/home/foo/bar".toList).2 (by decide),
    by rfl⟩

/-- C22.  For `MyClass<std::vector<T>>` holding `v`, `add(x)` returns a vector
of the length of `v` whose `i`-th element is `v[i] + x`; for every other
instantiation holding `m`, `add(x)` returns `m + x`; in both, the object holds
after the call what it held before. -/
theorem add_elementwise_or_direct {T AType AnotherType : Type} (plusT : T → T → T)
    (plus : AType → AnotherType → AType) (v : List T) (x : T) (m : AType)
    (y : AnotherType) :
    (MyClass.addVector plusT { m_val := v } x).1.length = v.length
      ∧ (∀ i : Nat, (MyClass.addVector plusT { m_val := v } x).1[i]?
          = (v[i]?).map (fun e => plusT e x))
      ∧ (MyClass.addVector plusT { m_val := v } x).2.m_val = v
      ∧ (MyClass.addOther plus { m_val := m } y).1 = plus m y
      ∧ (MyClass.addOther plus { m_val := m } y).2.m_val = m := by
  refine ⟨?_, ?_, rfl, rfl, rfl⟩
  · simp [MyClass.addVector, addToEach_eq_map]
  · intro i
    simp [MyClass.addVector, addToEach_eq_map]

/-- The calls of the program for C22: `{1, 2, 5, 10}.add(-1)` is `{0, 1, 4, 9}`
and `"Hello".add(" World!")` is `"Hello World!"`. -/
theorem add_elementwise_or_direct_witness :
    (MyClass.addVector (fun a b : Int => a + b) { m_val := [1, 2, 5, 10] } (-1)).1
        = [0, 1, 4, 9]
      ∧ (MyClass.addOther (fun a b : List Char => a ++ b) { m_val := "Hello".toList }
          " World!".toList).1 = "Hello World!".toList
      ∧ (MyClass.addVector (fun a b : Int => a + b) { m_val := [1, 2, 5, 10] } (-1)).1.length
        = ([1, 2, 5, 10] : List Int).length :=
  ⟨by decide, by decide,
    (add_elementwise_or_direct (fun a b : Int => a + b) (fun a b : List Char => a ++ b)
      [1, 2, 5, 10] (-1) "Hello".toList " World!".toList).1⟩

/-- C23.  The string `"1"` contains a decimal digit and, whatever the width of
`size_t` and whatever fuel the two loops get, `decompress(compress("1"))` is
not `"1"`. -/
theorem roundtrip_fails_on_digit (w f1 f2 : Nat) :
    (∃ c ∈ "1".toList, c.isDigit = true)
      ∧ (compress f1 "1".toList).bind (decompress w f2) ≠ some "1".toList := by
  refine ⟨⟨'1', by decide, by decide⟩, ?_⟩
  rw [compress, compressLoop_exact]
  have hruns : runs "1".toList = [('1', 1)] := by decide
  rw [hruns]
  by_cases h1 : ([('1', 1)] : List (Char × Nat)).length < f1
  · rw [if_pos h1]
    have henc : ([] : List Char) ++ encodeRuns [('1', 1)] = ['1', '1'] := by decide
    rw [henc, Option.bind]
    cases f2 with
    | zero => simp [decompress, decompressLoop]
    | succ f =>
      have hread : readDigits ['1', '1'] 0 = (11, []) := by decide
      have hd : ('1' : Char).isDigit = true := by decide
      have hm : ('1' : Char) ≠ '-' := by decide
      have hp : ('1' : Char) ≠ '+' := by decide
      by_cases hw : 11 < 2 ^ w
      · simp [decompress, decompressLoop, readSize, hread, hd, hm, hp, hw]
      · simp [decompress, decompressLoop, readSize, hread, hd, hm, hp, hw]
  · rw [if_neg h1]
    simp

/-- The run of C23 on a 64-bit `size_t`: `compress("1")` is `"11"`, which
`decompress` reads as the count 11 with no character after it, and returns the
empty string. -/
theorem roundtrip_fails_on_digit_witness :
    compress 2 "1".toList = some "11".toList
      ∧ decompress 64 2 "11".toList = some "".toList
      ∧ (compress 2 "1".toList).bind (decompress 64 2) ≠ some "1".toList :=
  ⟨by decide, by decide, (roundtrip_fails_on_digit 64 2 2).2⟩

/-- C24.  On an empty range `getNext` returns `(p_cur, '#', 0)`.  On a range
that starts with `c` it returns `c`, a length `n ≥ 1` and the position `n`
characters on, where the first `n` characters are all `c` and the rest is
empty or starts with another character; so the range left is strictly shorter.
`compress` ends exactly when it is given more fuel than `s` has runs, that is
after as many iterations as `s` has runs, and each pair it writes is a run of
positive length of a character of `s`. -/
theorem getNext_makes_progress (s : List Char) (fuel : Nat) :
    getNext [] = ([], '#', 0)
      ∧ (∀ c t, ∃ n rest, getNext (c :: t) = (rest, c, n) ∧ 1 ≤ n
          ∧ c :: t = List.replicate n c ++ rest ∧ rest.head? ≠ some c
          ∧ rest = (c :: t).drop n ∧ rest.length < (c :: t).length)
      ∧ compress fuel s
          = (if (runs s).length < fuel then some (encodeRuns (runs s)) else none)
      ∧ (∀ r ∈ runs s, 0 < r.2 ∧ r.1 ∈ s) := by
  refine ⟨rfl, getNext_cons, ?_, ?_⟩
  · rw [compress, compressLoop_exact]
    simp
  · intro r hr
    exact ⟨(runs_spec s).2.1 r hr, (runs_mem_bounds s r hr).1⟩

/-- The string `"Okkk"` for C24: it has two runs, `compress` ends with fuel 3
and not with fuel 2, and `getNext` takes the run `"O"` first. -/
theorem getNext_makes_progress_witness :
    (runs "Okkk".toList).length = 2
      ∧ compress 3 "Okkk".toList = some "1O3k".toList
      ∧ compress 2 "Okkk".toList = none
      ∧ getNext "Okkk".toList = ("kkk".toList, 'O', 1)
      ∧ getNext "kkk".toList = ([], 'k', 3) :=
  ⟨by decide, (getNext_makes_progress "Okkk".toList 3).2.2.1.trans (by decide), by decide,
    by decide, by decide⟩

/-- C25, evaluated at `FindRoots(1, -3, 2)` in exact real arithmetic: the
discriminant is 1, the pair returned is `(7/2, 5/2)`, neither component
satisfies `x^2 - 3x + 2 = 0`, and the roots of the equation are 2 and 1. -/
theorem FindRoots_pair_not_roots :
    FindRoots Real.sqrt 1 (-3) 2 = EquationRoots.pair (7 / 2) (5 / 2)
      ∧ (1 : ℝ) * (7 / 2) ^ 2 + (-3) * (7 / 2) + 2 ≠ 0
      ∧ (1 : ℝ) * (5 / 2) ^ 2 + (-3) * (5 / 2) + 2 ≠ 0
      ∧ (1 : ℝ) * 2 ^ 2 + (-3) * 2 + 2 = 0
      ∧ (1 : ℝ) * 1 ^ 2 + (-3) * 1 + 2 = 0 := by
  have hd : (-3 : ℝ) * (-3) - 4 * 1 * 2 = 1 := by norm_num
  refine ⟨?_, by norm_num, by norm_num, by norm_num, by norm_num⟩
  simp only [FindRoots, hd, Real.sqrt_one]
  norm_num
